import Mathlib

/-!
A verification development for the `form` library's flattening subsystem
(`reflect.go`).  The Go code walks a struct value with `reflect`, producing a
flat list of `field` descriptors; per-field `form:"..."` tags override
defaults.  We shallowly embed the reachable value universe and translate
`valueOf`, `fields`, `applyTags` and `parseTags` from the source.

Modelling conventions:
* Go strings are embedded as `List Char` (named `Str`), so that every string
  operation reduces in the kernel.  `strings.Split` is only ever called with a
  single-character separator (`";"`, `"="`, `","`), embedded as `splitOnC`;
  `strings.TrimSpace` is `trimSpace` (ASCII whitespace); `strings.Join` with
  `"."` is `intercalateC '.'`.
* A Go value is a `Val`: a string scalar, a pointer, a struct, or the invalid
  `reflect.Value` (the result of `Elem()` on a nil pointer).  A pointer value
  `Val.ptr z tgt` carries `z`, the zero value of its element type — in this
  universe a type is represented by its canonical zero value, so
  `reflect.Zero(t.Elem())` is exactly `z` — and an optional target.
  Interface kinds, and struct kinds other than these, are outside the
  modelled universe; none of the claims concern them.
* A struct field (`Fld`) carries its declared name, its anonymous/embedded
  flag, its raw `form` tag string and its current value.  Exportedness is
  derived from the name's first character, as in Go.
* `reflect.VisibleFields` together with the loop's `rv.FieldByIndex`
  accesses is embedded as `visibleFieldVals`: the depth-first walk lists
  each field and, for an anonymous field of struct or pointer-to-struct
  type, the visible fields of that struct (through the pointer's element
  type when the pointer is nil); hidden (shadowed) fields are then removed
  by the same name/depth rules as `visibleFieldsWalker`; finally each
  surviving field's value is read, and an access whose index path passes
  through a nil embedded pointer panics (`FieldByIndex`'s "indirection
  through nil pointer" panic) when the field is exported.  Recursive types
  (reflect's `visiting` set) are outside the modelled universe.
* Go's `map[string]string` is embedded as an association list with
  overwriting insertion (`upsert`); only lookups (`tagsGet`) are observable,
  matching the source, which never iterates the map.
* A Go `panic` is embedded as `none`; `fields` returns `Option`.
-/

/-- Go strings, as lists of characters. -/
abbrev Str := List Char

mutual
/-- The modelled universe of Go values (see the header comment). -/
inductive Val : Type where
  | str : Str → Val
  | ptr : Val → Tgt → Val
  | strct : Flds → Val
  | invalid : Val
  deriving Repr, DecidableEq

/-- The target of a pointer value: absent (nil), or a reference to a value. -/
inductive Tgt : Type where
  | null : Tgt
  | ref : Val → Tgt
  deriving Repr, DecidableEq

/-- The declared fields of a struct, in declaration order. -/
inductive Flds : Type where
  | nil : Flds
  | cons : Fld → Flds → Flds
  deriving Repr, DecidableEq

/-- One struct field: declared name, anonymous flag, raw `form` tag string,
current value.  The value's shape doubles as the field's declared type. -/
inductive Fld : Type where
  | mk : Str → Bool → Str → Val → Fld
  deriving Repr, DecidableEq
end

/-- Declared field name. -/
def Fld.name : Fld → Str
  | .mk n _ _ _ => n

/-- Anonymous (embedded) flag. -/
def Fld.anonymous : Fld → Bool
  | .mk _ a _ _ => a

/-- Raw `form` tag string (`tf.Tag.Get("form")`). -/
def Fld.tag : Fld → Str
  | .mk _ _ t _ => t

/-- Current value of the field. -/
def Fld.val : Fld → Val
  | .mk _ _ _ v => v

/-- `reflect.StructField.IsExported`: the first character of the declared
name is upper-case. -/
def isExported (n : Str) : Bool :=
  match n with
  | c :: _ => c.isUpper
  | [] => false

mutual
/-- Size measure on values, for termination of the flattener. -/
def szV : Val → Nat
  | .str _ => 1
  | .ptr z t => 1 + szV z + szT t
  | .strct fs => 1 + szF fs
  | .invalid => 1

/-- Size measure on pointer targets. -/
def szT : Tgt → Nat
  | .null => 0
  | .ref v => 1 + szV v

/-- Size measure on field lists. -/
def szF : Flds → Nat
  | .nil => 0
  | .cons fd rest => szFld fd + szF rest

/-- Size measure on fields. -/
def szFld : Fld → Nat
  | .mk _ _ _ v => 1 + szV v
end

mutual
/-- The zero value of (the type of) a value: `reflect.Zero` of its type.
Scalars zero to `""`, pointers to nil (keeping the element-type witness),
structs to the fieldwise zero; metadata is unchanged. -/
def zeroOf : Val → Val
  | .str _ => .str []
  | .ptr z _ => .ptr z .null
  | .strct fs => .strct (zeroFlds fs)
  | .invalid => .invalid

/-- Fieldwise zero of a field list. -/
def zeroFlds : Flds → Flds
  | .nil => .nil
  | .cons fd rest => .cons (zeroFld fd) (zeroFlds rest)

/-- Zero of one field: same metadata, zero value. -/
def zeroFld : Fld → Fld
  | .mk n a t v => .mk n a t (zeroOf v)
end

/-- The dereferencing loop of `valueOf`: while the value is pointer-kinded,
take `Elem()`; `Elem()` of a nil pointer is the invalid value, on which the
loop stops. -/
def derefAll : Val → Val
  | .ptr _ (.ref u) => derefAll u
  | .ptr _ .null => .invalid
  | .str s => .str s
  | .strct fs => .strct fs
  | .invalid => .invalid

/-- `valueOf` from reflect.go: if the top-level value is a nil pointer,
replace it by `reflect.Zero` of its element type (which in this universe is
the carried witness `z`); then unwrap indirection until a concrete value
remains. -/
def valueOf (v : Val) : Val :=
  match v with
  | .ptr z .null => derefAll z
  | _ => derefAll v

/-- `strings.TrimSpace` (ASCII whitespace suffices for the claims). -/
def trimSpace (s : Str) : Str :=
  ((s.dropWhile Char.isWhitespace).reverse.dropWhile Char.isWhitespace).reverse

/-- `strings.Split` with a one-character separator (the only form used by
the source: `";"`, `"="` and `","`). -/
def splitOnC (c : Char) : Str → List Str
  | [] => [[]]
  | a :: rest =>
    match splitOnC c rest with
    | [] => [[a]]
    | s :: ss => if a = c then [] :: s :: ss else (a :: s) :: ss

/-- `strings.Join` with a one-character separator. -/
def intercalateC (c : Char) : List Str → Str
  | [] => []
  | [s] => s
  | s :: rest => s ++ c :: intercalateC c rest

/-- The parsed tag map.  Go's `map[string]string` is observed only through
lookups, so an association list with overwriting insertion is a faithful
embedding. -/
abbrev Tags := List (Str × Str)

/-- Map assignment `ret[k] = v`: any earlier binding of `k` is replaced. -/
def upsert (m : Tags) (k v : Str) : Tags :=
  m.filter (fun p => !(p.1 == k)) ++ [(k, v)]

/-- Map lookup `tags[k]`. -/
def tagsGet (m : Tags) (k : Str) : Option Str :=
  (m.find? (fun p => p.1 == k)).map (·.2)

/-- The loop of `parseTags` over the `";"`-separated segments.  A segment
with no `"="` either is exactly `"-"` — return `(nil, true)` immediately,
embedded as `none` — or is skipped.  Otherwise the first and second `"="`
tokens are the key and the value, trimmed, and assigned into the map. -/
def parseLoop : List Str → Tags → Option Tags
  | [], acc => some acc
  | seg :: rest, acc =>
    match splitOnC '=' seg with
    | [] => parseLoop rest acc
    | [k] => if k = ['-'] then none else parseLoop rest acc
    | k :: v :: _ => parseLoop rest (upsert acc (trimSpace k) (trimSpace v))

/-- `parseTags` from reflect.go.  `none` embeds the `(nil, true)` (ignored)
result; `some m` embeds `(m, false)`. -/
def parseTags (tags : Str) : Option Tags :=
  let t := trimSpace tags
  if t = [] then some [] else parseLoop (splitOnC ';' t) []

/-- The descriptor emitted for one leaf field (`type field` in reflect.go).
`template.HTML` is a string; `Value` holds the field's `reflect` value.
The `Options` attribute is absent from src/reflect.go; it is modelled from
the spec (§3, §4.2), which records both it and `ReadOnly`, and it is
exercised by the repository's tests. -/
structure field where
  Name : Str
  Label : Str
  Placeholder : Str
  Typ : Str
  ID : Str
  ReadOnly : Bool
  Value : Val
  Footer : Str
  Class : Str
  Options : List Str
  deriving Repr

/-- The default descriptor built in the loop of `fields`, before tags are
applied: the struct literal plus Go zero values for the remaining
attributes (`Options` defaults to the empty list). -/
def defaultField (names : List Str) (fdName : Str) (value : Val) : field :=
  { Name := intercalateC '.' (names ++ [fdName])
    Label := fdName
    Placeholder := fdName
    Typ := "text".toList
    ID := []
    ReadOnly := false
    Value := value
    Footer := []
    Class := []
    Options := [] }

/-- `applyTags` from reflect.go: each recognized key overrides its
attribute, in source order; `label` also writes `Placeholder`, and the
later `placeholder` check wins when both are present.

Modelled from the spec: the `options` key is absent from src/reflect.go
(only the repository's tests exercise it); per §4.2 its value is split on
`","` and the resulting ordered list is stored in `Options`. -/
def applyTags (f : field) (tags : Tags) : field :=
  let f1 := match tagsGet tags "name".toList with
    | some v => { f with Name := v }
    | none => f
  let f2 := match tagsGet tags "label".toList with
    | some v => { f1 with Label := v, Placeholder := v }
    | none => f1
  let f3 := match tagsGet tags "placeholder".toList with
    | some v => { f2 with Placeholder := v }
    | none => f2
  let f4 := match tagsGet tags "type".toList with
    | some v => { f3 with Typ := v }
    | none => f3
  let f5 := match tagsGet tags "id".toList with
    | some v => { f4 with ID := v }
    | none => f4
  let f6 := match tagsGet tags "footer".toList with
    | some v => { f5 with Footer := v }
    | none => f5
  let f7 := match tagsGet tags "class".toList with
    | some v => { f6 with Class := v }
    | none => f6
  let f8 := match tagsGet tags "readonly".toList with
    | some v => { f7 with ReadOnly := v == "true".toList }
    | none => f7
  match tagsGet tags "options".toList with
    | some v => { f8 with Options := splitOnC ',' v }
    | none => f8

/-- Is the (normalized) value a struct? -/
def Val.isStrct : Val → Bool
  | .strct _ => true
  | _ => false

/-- `reflect.Indirect`: `Elem()` for pointer values (invalid when nil),
identity otherwise. -/
def indirect : Val → Val
  | .ptr _ (.ref u) => u
  | .ptr _ .null => .invalid
  | v => v

/-- The per-field value used by the loop of `fields`: the field's value,
except that a nil pointer is replaced by `reflect.Zero` of its element type
(the carried witness). -/
def substVal (fd : Fld) : Val :=
  match fd.val with
  | .ptr z .null => z
  | v => v

theorem szV_derefAll_le (v : Val) : szV (derefAll v) ≤ szV v := by
  match v with
  | .ptr z (.ref u) =>
    have := szV_derefAll_le u
    simp [derefAll, szV, szT]; omega
  | .ptr z .null => simp [derefAll, szV, szT]
  | .str s => simp [derefAll]
  | .strct fs => simp [derefAll]
  | .invalid => simp [derefAll]

theorem szV_valueOf_le (v : Val) : szV (valueOf v) ≤ szV v := by
  match v with
  | .ptr z .null =>
    have := szV_derefAll_le z
    simp [valueOf, szV, szT]; omega
  | .ptr z (.ref u) => exact szV_derefAll_le _
  | .str s => exact szV_derefAll_le _
  | .strct fs => exact szV_derefAll_le _
  | .invalid => exact szV_derefAll_le _

theorem szV_substVal_le (fd : Fld) : szV (substVal fd) ≤ szV fd.val := by
  match fd with
  | .mk n a t v =>
    match v with
    | .ptr z .null => simp [substVal, Fld.val, szV, szT]
    | .ptr z (.ref u) => simp [substVal, Fld.val]
    | .str s => simp [substVal, Fld.val]
    | .strct fs => simp [substVal, Fld.val]
    | .invalid => simp [substVal, Fld.val]

/-- The maximal field-value size in a list of fields. -/
def maxFld (l : List Fld) : Nat :=
  l.foldr (fun fd m => max (szV fd.val) m) 0

theorem maxFld_cons (fd : Fld) (rest : List Fld) :
    maxFld (fd :: rest) = max (szV fd.val) (maxFld rest) := rfl

theorem maxFld_lt_iff (l : List Fld) (n : Nat) (hn : 0 < n) :
    maxFld l < n ↔ ∀ fd ∈ l, szV fd.val < n := by
  induction l with
  | nil => simpa [maxFld]
  | cons fd rest ihl =>
    rw [maxFld_cons]
    simp [Nat.max_lt, ihl]

/-- One entry of the `reflect.VisibleFields` walk: the field's depth (the
length of its index path), its declared metadata, and the result of
`rv.FieldByIndex` on its index path — `none` when that access panics
because the path passes through a nil embedded pointer. -/
structure WEntry where
  depth : Nat
  name : Str
  anonymous : Bool
  tag : Str
  access : Option Val

mutual
/-- The depth-first walk of `reflect.VisibleFields`, paired with the field
values reached by `rv.FieldByIndex`: every declared field in order, an
anonymous field of struct or pointer-to-struct (element) type followed by
the walk of that struct.  `dead` records that the index path so far passes
through a nil embedded pointer: the enumeration continues over the element
type (represented by its canonical zero value), but every access on it
panics.  Hiding of shadowed fields is applied afterwards (`applyShadow`). -/
def visibleWalk : Flds → Bool → Nat → List WEntry
  | .nil, _, _ => []
  | .cons fd rest, dead, depth =>
    ⟨depth, fd.name, fd.anonymous, fd.tag, if dead then none else some fd.val⟩ ::
      (promotedWalk fd dead depth ++ visibleWalk rest dead depth)

/-- The sub-walk contributed by one declared field: an anonymous field of
struct type walks the struct; an anonymous field of pointer-to-struct type
walks the pointee — the element type's zero value, with every further
access panicking, when the pointer is nil.  Nothing else contributes. -/
def promotedWalk : Fld → Bool → Nat → List WEntry
  | .mk _ true _ (.strct gs), dead, depth => visibleWalk gs dead (depth + 1)
  | .mk _ true _ (.ptr (.strct gz) .null), _, depth => visibleWalk gz true (depth + 1)
  | .mk _ true _ (.ptr (.strct _) (.ref (.strct gu))), dead, depth =>
    visibleWalk gu dead (depth + 1)
  | _, _, _ => []
end

/-- Mark the added entry at position `j` as hidden (reflect's in-place
`old.Name = ""`). -/
def markDead (acc : List (Nat × Nat × Bool)) (j : Nat) : List (Nat × Nat × Bool) :=
  match acc[j]? with
  | some (i0, d0, _) => acc.set j (i0, d0, false)
  | none => acc

/-- Lookup in the walker's `byName` map. -/
def nmLookup (m : List (Str × Nat)) (n : Str) : Option Nat :=
  (m.find? (fun p => p.1 == n)).map (·.2)

/-- Assignment in the walker's `byName` map. -/
def nmSet (m : List (Str × Nat)) (n : Str) (i : Nat) : List (Str × Nat) :=
  m.filter (fun p => !(p.1 == n)) ++ [(n, i)]

/-- One step of `visibleFieldsWalker.walk`'s hiding bookkeeping, which
depends only on the field's name and depth (its index length): a fresh
name is added; against the existing representative, equal depths cancel
both fields, a shallower new field hides the old one, and a deeper new
field is dropped.  The state is the added entries (input position, depth,
alive flag) in addition order plus the `byName` map into them. -/
def shadowStep (st : List (Nat × Nat × Bool) × List (Str × Nat))
    (p : Nat × (Str × Nat)) : List (Nat × Nat × Bool) × List (Str × Nat) :=
  let acc := st.1
  let byName := st.2
  let i := p.1
  let n := p.2.1
  let d := p.2.2
  match nmLookup byName n with
  | none => (acc ++ [(i, d, true)], nmSet byName n acc.length)
  | some j =>
    match acc[j]? with
    | none => (acc, byName)
    | some (_, d0, _) =>
      if d = d0 then (markDead acc j, byName)
      else if d < d0 then ((markDead acc j) ++ [(i, d, true)], nmSet byName n acc.length)
      else (acc, byName)

/-- The walked keys with their input positions. -/
def enumKeys (i : Nat) : List (Str × Nat) → List (Nat × (Str × Nat))
  | [] => []
  | k :: rest => (i, k) :: enumKeys (i + 1) rest

/-- The input positions of the fields that survive hiding. -/
def shadowAlive (keys : List (Str × Nat)) : List Nat :=
  (((enumKeys 0 keys).foldl shadowStep ([], [])).1.filter (fun e => e.2.2)).map (·.1)

/-- Keep the entries at the given input positions, in input order. -/
def idxFilter (alive : List Nat) : Nat → List WEntry → List WEntry
  | _, [] => []
  | i, e :: rest =>
    if alive.contains i then e :: idxFilter alive (i + 1) rest
    else idxFilter alive (i + 1) rest

/-- The hiding key of one walked entry: its name and depth. -/
def wKey (e : WEntry) : Str × Nat := (e.name, e.depth)

/-- `reflect.VisibleFields`' removal of hidden fields: the walker's
in-place marking followed by the removal pass, as a filter by the hiding
mask (which is a function of the name/depth sequence alone). -/
def applyShadow (l : List WEntry) : List WEntry :=
  idxFilter (shadowAlive (l.map wKey)) 0 l

/-- The loop of `fields` reads each exported visible field's value with
`rv.FieldByIndex` before any other use of the field, so the whole call
panics exactly when some exported visible entry's access panics; the
descriptor list is produced only otherwise.  Resolving all accesses up
front therefore yields the same `Option` result as Go's in-loop accesses.
An unexported entry is skipped by the loop before its value is read, so a
panicking unexported access resolves to a placeholder (`Val.invalid`)
that the loop never inspects. -/
def resolveAccess : List WEntry → Option (List Fld)
  | [] => some []
  | e :: rest =>
    match e.access with
    | some v => (resolveAccess rest).map (Fld.mk e.name e.anonymous e.tag v :: ·)
    | none =>
      if isExported e.name then none
      else (resolveAccess rest).map (Fld.mk e.name e.anonymous e.tag .invalid :: ·)

/-- `reflect.VisibleFields` paired with the loop's `FieldByIndex`
accesses: the depth-first walk, hidden fields removed, accesses resolved
(`none` when an exported visible field's access panics on a nil embedded
pointer). -/
def visibleFieldVals (fs : Flds) : Option (List Fld) :=
  resolveAccess (applyShadow (visibleWalk fs false 1))

theorem mem_idxFilter (alive : List Nat) :
    ∀ (i : Nat) (l : List WEntry) (e : WEntry), e ∈ idxFilter alive i l → e ∈ l := by
  intro i l
  induction l generalizing i with
  | nil => intro e h; simp [idxFilter] at h
  | cons a rest ih =>
    intro e h
    rw [idxFilter] at h
    by_cases hc : alive.contains i = true
    · rw [if_pos hc] at h
      rcases List.mem_cons.mp h with h | h
      · subst h; exact List.mem_cons_self _ _
      · exact List.mem_cons_of_mem _ (ih (i + 1) e h)
    · rw [if_neg hc] at h
      exact List.mem_cons_of_mem _ (ih (i + 1) e h)

theorem mem_applyShadow (l : List WEntry) (e : WEntry) (h : e ∈ applyShadow l) :
    e ∈ l :=
  mem_idxFilter _ 0 l e h

/-- Every value readable through a walked entry lies inside the struct. -/
theorem szV_lt_of_walk_access :
    ∀ (n : Nat) (fs : Flds), szF fs < n → ∀ (dead : Bool) (d : Nat),
      ∀ e ∈ visibleWalk fs dead d, ∀ u, e.access = some u →
        szV u < szV (Val.strct fs) := by
  intro n
  induction n using Nat.strong_induction_on with
  | _ n ih =>
    intro fs hlt dead d e hmem u hacc
    match fs with
    | .nil => simp [visibleWalk] at hmem
    | .cons (.mk nm a tg v) rest =>
      rw [visibleWalk] at hmem
      rcases List.mem_cons.mp hmem with h | h
      · subst h
        simp only at hacc
        by_cases hd : dead = true
        · rw [if_pos hd] at hacc; exact absurd hacc (by simp)
        · rw [if_neg hd] at hacc
          injection hacc with hacc
          subst hacc
          simp only [Fld.val, szV, szF, szFld]
          omega
      rcases List.mem_append.mp h with h | h
      · -- promoted sub-walk
        match a, v with
        | true, .strct gs =>
          rw [show promotedWalk (.mk nm true tg (.strct gs)) dead d =
            visibleWalk gs dead (d + 1) from rfl] at h
          have hb : szF gs + 1 < n := by
            simp only [szF, szFld, szV] at hlt ⊢; omega
          have := ih (szF gs + 1) hb gs (by omega) dead (d + 1) e h u hacc
          simp only [szV, szF, szFld] at this ⊢
          omega
        | true, .ptr (.strct gz) .null =>
          rw [show promotedWalk (.mk nm true tg (.ptr (.strct gz) .null)) dead d =
            visibleWalk gz true (d + 1) from rfl] at h
          have hb : szF gz + 1 < n := by
            simp only [szF, szFld, szV, szT] at hlt ⊢; omega
          have := ih (szF gz + 1) hb gz (by omega) true (d + 1) e h u hacc
          simp only [szV, szF, szFld, szT] at this ⊢
          omega
        | true, .ptr (.strct gz) (.ref (.strct gu)) =>
          rw [show promotedWalk (.mk nm true tg (.ptr (.strct gz) (.ref (.strct gu)))) dead d =
            visibleWalk gu dead (d + 1) from rfl] at h
          have hb : szF gu + 1 < n := by
            simp only [szF, szFld, szV, szT] at hlt ⊢; omega
          have := ih (szF gu + 1) hb gu (by omega) dead (d + 1) e h u hacc
          simp only [szV, szF, szFld, szT] at this ⊢
          omega
        | true, .str s => simp [promotedWalk] at h
        | true, .ptr (.str s) t => cases t <;> simp [promotedWalk] at h
        | true, .ptr (.ptr z' t') t => cases t <;> simp [promotedWalk] at h
        | true, .ptr .invalid t => cases t <;> simp [promotedWalk] at h
        | true, .ptr (.strct gz) (.ref (.str s)) => simp [promotedWalk] at h
        | true, .ptr (.strct gz) (.ref (.ptr z' t')) => simp [promotedWalk] at h
        | true, .ptr (.strct gz) (.ref .invalid) => simp [promotedWalk] at h
        | true, .invalid => simp [promotedWalk] at h
        | false, v => simp [promotedWalk] at h
      · have hb : szF rest + 1 < n := by
          simp only [szF, szFld] at hlt ⊢; omega
        have := ih (szF rest + 1) hb rest (by omega) dead d e h u hacc
        simp only [szV, szF, szFld] at this ⊢
        omega

/-- Every resolved visible value either came from an access or is the
unexported placeholder. -/
theorem resolveAccess_val :
    ∀ (l : List WEntry) (g : List Fld), resolveAccess l = some g →
      ∀ fd ∈ g, (∃ e ∈ l, e.access = some fd.val) ∨ fd.val = .invalid := by
  intro l
  induction l with
  | nil =>
    intro g hg fd hfd
    rw [resolveAccess] at hg
    injection hg with hg
    subst hg
    simp at hfd
  | cons e rest ih =>
    intro g hg fd hfd
    rw [resolveAccess] at hg
    rcases hacc : e.access with _ | v
    · rw [hacc] at hg
      by_cases hx : isExported e.name = true
      · rw [if_pos hx] at hg; exact absurd hg (by simp)
      · rw [if_neg hx] at hg
        rcases hr : resolveAccess rest with _ | g'
        · rw [hr] at hg; exact absurd hg (by simp)
        · rw [hr] at hg
          simp at hg
          subst hg
          rcases List.mem_cons.mp hfd with h | h
          · subst h; right; rfl
          · rcases ih g' hr fd h with ⟨e', he', ha'⟩ | h'
            · exact Or.inl ⟨e', List.mem_cons_of_mem _ he', ha'⟩
            · exact Or.inr h'
    · rw [hacc] at hg
      rcases hr : resolveAccess rest with _ | g'
      · rw [hr] at hg; exact absurd hg (by simp)
      · rw [hr] at hg
        simp at hg
        subst hg
        rcases List.mem_cons.mp hfd with h | h
        · subst h
          exact Or.inl ⟨e, List.mem_cons_self _ _, hacc⟩
        · rcases ih g' hr fd h with ⟨e', he', ha'⟩ | h'
          · exact Or.inl ⟨e', List.mem_cons_of_mem _ he', ha'⟩
          · exact Or.inr h'

/-- Every resolved visible field's value is strictly smaller than the
struct. -/
theorem szV_lt_of_mem_visible (fs : Flds) (l : List Fld)
    (hl : visibleFieldVals fs = some l) :
    ∀ fd ∈ l, szV fd.val < szV (Val.strct fs) := by
  intro fd hfd
  match fs with
  | .nil =>
    rw [show visibleFieldVals .nil = some [] from rfl] at hl
    injection hl with hl
    subst hl
    simp at hfd
  | .cons fd0 rest =>
    rcases resolveAccess_val _ l hl fd hfd with ⟨e, he, hacc⟩ | hinv
    · exact szV_lt_of_walk_access (szF (Flds.cons fd0 rest) + 1) _ (by omega) false 1 e
        (mem_applyShadow _ e he) fd.val hacc
    · rw [hinv]
      match fd0 with
      | .mk nm a tg v => simp [szV, szF, szFld]

mutual
/-- `fields` from reflect.go: normalize the input; panic (`none`) unless
the result is a struct; enumerate the visible fields and read their values
(panicking on a nil embedded pointer under an exported promoted field);
then walk them. -/
def fields (v : Val) (names : List Str) : Option (List field) :=
  match hv : valueOf v with
  | .strct fs =>
    match hl : visibleFieldVals fs with
    | none => none
    | some l => fieldsLoop l names
  | .str _ => none
  | .ptr _ _ => none
  | .invalid => none
termination_by (szV v, 0)
decreasing_by
  simp_wf
  apply Prod.Lex.left
  have h2 := szV_valueOf_le v
  rw [hv] at h2
  have h1 : maxFld l < szV (Val.strct fs) := by
    rw [maxFld_lt_iff _ _ (by simp [szV])]
    exact szV_lt_of_mem_visible fs l hl
  simp only [szV] at h1 h2 ⊢
  omega

/-- The loop body of `fields`, over the visible fields in order.  Skip
unexported fields; substitute a zero value for a nil pointer; for a (one
level indirected) struct recurse with the extended name path when the field
is named and skip when it is anonymous (its promoted fields follow in the
enumeration); otherwise parse the tag, skip if ignored, and emit the default
descriptor with tag overrides applied. -/
def fieldsLoop (l : List Fld) (names : List Str) : Option (List field) :=
  match l with
  | [] => some []
  | fd :: rest =>
    if isExported fd.name = false then fieldsLoop rest names
    else if (indirect (substVal fd)).isStrct then
      if fd.anonymous = false then
        match fields (substVal fd) (names ++ [fd.name]) with
        | none => none
        | some sub =>
          match fieldsLoop rest names with
          | none => none
          | some tl => some (sub ++ tl)
      else fieldsLoop rest names
    else
      match parseTags fd.tag with
      | none => fieldsLoop rest names
      | some tags =>
        match fieldsLoop rest names with
        | none => none
        | some tl => some (applyTags (defaultField names fd.name (substVal fd)) tags :: tl)
termination_by (maxFld l, l.length)
decreasing_by
  all_goals simp_wf
  all_goals first
  | · have h : szV (substVal fd) ≤ max (szV fd.val) (maxFld rest) :=
        le_trans (szV_substVal_le fd) (le_max_left _ _)
      rw [maxFld_cons]
      rcases Nat.eq_or_lt_of_le h with h | h
      · rw [← h]; exact Prod.Lex.right _ (by simp)
      · exact Prod.Lex.left _ _ h
  | · have h : maxFld rest ≤ max (szV fd.val) (maxFld rest) := le_max_right _ _
      rw [maxFld_cons]
      rcases Nat.eq_or_lt_of_le h with h | h
      · rw [← h]; exact Prod.Lex.right _ (by simp)
      · exact Prod.Lex.left _ _ h
end

/-- One-step unfolding of `fields`. -/
theorem fields_def (v : Val) (names : List Str) :
    fields v names = match valueOf v with
      | .strct fs =>
        match visibleFieldVals fs with
        | none => none
        | some l => fieldsLoop l names
      | .str _ => none
      | .ptr _ _ => none
      | .invalid => none := by
  rw [fields]
  split
  · split <;> simp [*]
  all_goals simp [*]

/-- One-step unfolding of `fieldsLoop`. -/
theorem fieldsLoop_def (l : List Fld) (names : List Str) :
    fieldsLoop l names = match l with
  | [] => some []
  | fd :: rest =>
    if isExported fd.name = false then fieldsLoop rest names
    else if (indirect (substVal fd)).isStrct then
      if fd.anonymous = false then
        match fields (substVal fd) (names ++ [fd.name]) with
        | none => none
        | some sub =>
          match fieldsLoop rest names with
          | none => none
          | some tl => some (sub ++ tl)
      else fieldsLoop rest names
    else
      match parseTags fd.tag with
      | none => fieldsLoop rest names
      | some tags =>
        match fieldsLoop rest names with
        | none => none
        | some tl => some (applyTags (defaultField names fd.name (substVal fd)) tags :: tl) := by
  rw [fieldsLoop.eq_def]

theorem fieldsLoop_nil (names : List Str) : fieldsLoop [] names = some [] := by
  rw [fieldsLoop_def]

/-- An unexported field is skipped. -/
theorem fieldsLoop_unexported (fd : Fld) (rest : List Fld) (names : List Str)
    (h : isExported fd.name = false) :
    fieldsLoop (fd :: rest) names = fieldsLoop rest names := by
  rw [fieldsLoop_def]
  simp [h]

/-- A named field of (indirected) struct kind: recurse with the extended
path; the field itself produces no descriptor. -/
theorem fieldsLoop_record (fd : Fld) (rest : List Fld) (names : List Str)
    (hx : isExported fd.name = true)
    (hs : (indirect (substVal fd)).isStrct = true)
    (ha : fd.anonymous = false) :
    fieldsLoop (fd :: rest) names =
      match fields (substVal fd) (names ++ [fd.name]) with
      | none => none
      | some sub =>
        match fieldsLoop rest names with
        | none => none
        | some tl => some (sub ++ tl) := by
  rw [fieldsLoop_def]
  simp [hx, hs, ha]

/-- An anonymous field of struct kind contributes nothing at its own slot
(its promoted fields already follow in the enumeration). -/
theorem fieldsLoop_anon (fd : Fld) (rest : List Fld) (names : List Str)
    (hx : isExported fd.name = true)
    (hs : (indirect (substVal fd)).isStrct = true)
    (ha : fd.anonymous = true) :
    fieldsLoop (fd :: rest) names = fieldsLoop rest names := by
  rw [fieldsLoop_def]
  simp [hx, hs, ha]

/-- A leaf field whose tag carries the ignore marker is skipped. -/
theorem fieldsLoop_ignored (fd : Fld) (rest : List Fld) (names : List Str)
    (hx : isExported fd.name = true)
    (hs : (indirect (substVal fd)).isStrct = false)
    (hp : parseTags fd.tag = none) :
    fieldsLoop (fd :: rest) names = fieldsLoop rest names := by
  rw [fieldsLoop_def]
  simp [hx, hs, hp]

/-- A leaf field is emitted: the default descriptor with tag overrides
applied, in front of the rest of the loop's output. -/
theorem fieldsLoop_leaf (fd : Fld) (rest : List Fld) (names : List Str) (tags : Tags)
    (hx : isExported fd.name = true)
    (hs : (indirect (substVal fd)).isStrct = false)
    (hp : parseTags fd.tag = some tags) :
    fieldsLoop (fd :: rest) names =
      match fieldsLoop rest names with
      | none => none
      | some tl => some (applyTags (defaultField names fd.name (substVal fd)) tags :: tl) := by
  rw [fieldsLoop_def]
  simp [hx, hs, hp]

/-- `fields` on a value normalizing to a struct whose visible fields
resolve. -/
theorem fields_eq_loop (w : Val) (names : List Str) (gs : Flds) (l : List Fld)
    (h : valueOf w = .strct gs) (hl : visibleFieldVals gs = some l) :
    fields w names = fieldsLoop l names := by
  simp only [fields_def, h, hl]

/-- `fields` on a value normalizing to a struct whose visible-field
resolution panics. -/
theorem fields_eq_none (w : Val) (names : List Str) (gs : Flds)
    (h : valueOf w = .strct gs) (hl : visibleFieldVals gs = none) :
    fields w names = none := by
  simp only [fields_def, h, hl]

/-- Full characterization of `applyTags`: every attribute is its override
when the key is present and unchanged otherwise; `label` double-writes
`Placeholder`, and a present `placeholder` key wins over it. -/
theorem applyTags_eq (f : field) (tags : Tags) :
    applyTags f tags = {
      Name := (tagsGet tags "name".toList).getD f.Name
      Label := (tagsGet tags "label".toList).getD f.Label
      Placeholder := (tagsGet tags "placeholder".toList).getD
        ((tagsGet tags "label".toList).getD f.Placeholder)
      Typ := (tagsGet tags "type".toList).getD f.Typ
      ID := (tagsGet tags "id".toList).getD f.ID
      ReadOnly := match tagsGet tags "readonly".toList with
        | some v => v == "true".toList
        | none => f.ReadOnly
      Value := f.Value
      Footer := (tagsGet tags "footer".toList).getD f.Footer
      Class := (tagsGet tags "class".toList).getD f.Class
      Options := match tagsGet tags "options".toList with
        | some v => splitOnC ',' v
        | none => f.Options } := by
  unfold applyTags
  cases h1 : tagsGet tags "name".toList <;>
  cases h2 : tagsGet tags "label".toList <;>
  cases h3 : tagsGet tags "placeholder".toList <;>
  cases h4 : tagsGet tags "type".toList <;>
  cases h5 : tagsGet tags "id".toList <;>
  cases h6 : tagsGet tags "footer".toList <;>
  cases h7 : tagsGet tags "class".toList <;>
  cases h8 : tagsGet tags "readonly".toList <;>
  cases h9 : tagsGet tags "options".toList <;>
  rfl

/-- C1: whenever the parsed annotation contains the key `options`, the
descriptor builder sets the descriptor's `Options` attribute to the value
split on `","`, the tokens in order and verbatim; and the default
descriptor (built before any overrides) has an empty `Options` list. -/
theorem claim_C1 :
    (∀ (f : field) (tags : Tags) (v : Str), tagsGet tags "options".toList = some v →
      (applyTags f tags).Options = splitOnC ',' v) ∧
    (∀ (names : List Str) (nm : Str) (value : Val),
      (defaultField names nm value).Options = []) := by
  constructor
  · intro f tags v h
    rw [applyTags_eq, h]
  · intro names nm value
    rfl

theorem claim_C1_witness :
    (applyTags (defaultField [] "Name".toList (.str []))
        [("options".toList, "readonly,required".toList)]).Options =
      ["readonly".toList, "required".toList] := by
  have h := claim_C1.1 (defaultField [] "Name".toList (.str []))
    [("options".toList, "readonly,required".toList)] "readonly,required".toList (by rfl)
  rw [h]
  rfl

/-- C8: a `label` override writes both `Label` and `Placeholder`; when a
`placeholder` override is also present it is applied after the `label`
override and determines `Placeholder`. -/
theorem claim_C8 :
    ∀ (f : field) (tags : Tags) (lv : Str), tagsGet tags "label".toList = some lv →
      (applyTags f tags).Label = lv ∧
      (tagsGet tags "placeholder".toList = none → (applyTags f tags).Placeholder = lv) ∧
      (∀ pv, tagsGet tags "placeholder".toList = some pv →
        (applyTags f tags).Placeholder = pv) := by
  intro f tags lv h
  refine ⟨?_, ?_, ?_⟩
  · rw [applyTags_eq, h]; rfl
  · intro hp; rw [applyTags_eq, hp, h]; rfl
  · intro pv hp; rw [applyTags_eq, hp]; rfl

theorem claim_C8_witness :
    (applyTags (defaultField [] "Name".toList (.str []))
        [("label".toList, "Full Name".toList)]).Label = "Full Name".toList ∧
    (applyTags (defaultField [] "Name".toList (.str []))
        [("label".toList, "Full Name".toList)]).Placeholder = "Full Name".toList ∧
    (applyTags (defaultField [] "Name".toList (.str []))
        [("label".toList, "Full Name".toList),
         ("placeholder".toList, "e.g. Jane".toList)]).Placeholder = "e.g. Jane".toList := by
  refine ⟨?_, ?_, ?_⟩
  · exact (claim_C8 (defaultField [] "Name".toList (.str []))
      [("label".toList, "Full Name".toList)] "Full Name".toList (by rfl)).1
  · exact (claim_C8 (defaultField [] "Name".toList (.str []))
      [("label".toList, "Full Name".toList)] "Full Name".toList (by rfl)).2.1 (by rfl)
  · exact (claim_C8 (defaultField [] "Name".toList (.str []))
      [("label".toList, "Full Name".toList), ("placeholder".toList, "e.g. Jane".toList)]
      "Full Name".toList (by rfl)).2.2 "e.g. Jane".toList (by rfl)

theorem splitOnC_ne_nil (c : Char) (s : Str) : splitOnC c s ≠ [] := by
  match s with
  | [] => simp [splitOnC]
  | a :: rest =>
    rw [splitOnC.eq_def]
    dsimp only
    split
    · simp
    · by_cases hac : a = c <;> simp [hac]

theorem splitOnC_singleton (c : Char) (s k : Str) (h : splitOnC c s = [k]) : k = s := by
  induction s generalizing k with
  | nil =>
    rw [splitOnC.eq_def] at h
    dsimp only at h
    injection h with h1 h2
    exact h1.symm
  | cons a rest ih =>
    rw [splitOnC.eq_def] at h
    dsimp only at h
    split at h
    · rename_i hr
      exact absurd hr (splitOnC_ne_nil c rest)
    · rename_i s' ss hr
      by_cases hac : a = c
      · rw [if_pos hac] at h
        injection h with h1 h2
        exact absurd h2 (List.cons_ne_nil _ _)
      · rw [if_neg hac] at h
        injection h with h1 h2
        subst h2
        have := ih s' hr
        subst this
        exact h1.symm

theorem not_mem_of_mem_splitOnC (c : Char) (s : Str) :
    ∀ t ∈ splitOnC c s, c ∉ t := by
  induction s with
  | nil => simp [splitOnC]
  | cons a rest ih =>
    intro t ht
    rw [splitOnC.eq_def] at ht
    dsimp only at ht
    split at ht
    · rename_i hr
      exact absurd hr (splitOnC_ne_nil c rest)
    · rename_i s' ss hr
      by_cases hac : a = c
      · rw [if_pos hac] at ht
        rcases List.mem_cons.mp ht with h | h
        · subst h; simp
        · exact ih t (by rw [hr]; exact h)
      · rw [if_neg hac] at ht
        rcases List.mem_cons.mp ht with h | h
        · subst h
          intro hmem
          rcases List.mem_cons.mp hmem with h | h
          · exact hac h.symm
          · exact ih s' (by rw [hr]; exact List.mem_cons_self _ _) h
        · exact ih t (by rw [hr]; exact List.mem_cons_of_mem _ h)

/-- `parseTags` reports the ignored marker exactly when some `";"`-segment
is the literal `"-"`. -/
theorem parseLoop_none_iff (segs : List Str) :
    ∀ acc : Tags, parseLoop segs acc = none ↔ ['-'] ∈ segs := by
  induction segs with
  | nil => intro acc; simp [parseLoop]
  | cons seg rest ih =>
    intro acc
    rw [parseLoop.eq_def]
    dsimp only
    split
    · rename_i hsplit
      exact absurd hsplit (splitOnC_ne_nil _ _)
    · rename_i k hsplit
      by_cases hk : k = ['-']
      · rw [if_pos hk]
        constructor
        · intro _
          have hseg := splitOnC_singleton '=' seg k hsplit
          rw [← hseg, hk]
          exact List.mem_cons_self _ _
        · intro _; rfl
      · rw [if_neg hk, ih acc]
        constructor
        · exact List.mem_cons_of_mem _
        · intro h
          rcases List.mem_cons.mp h with h | h
          · exfalso
            apply hk
            rw [splitOnC_singleton '=' seg k hsplit, h]
          · exact h
    · rename_i k v vs hsplit
      rw [ih _]
      constructor
      · exact List.mem_cons_of_mem _
      · intro h
        rcases List.mem_cons.mp h with h | h
        · exfalso
          have hd : splitOnC '=' (['-'] : Str) = [['-']] := by decide
          rw [← h, hd] at hsplit
          injection hsplit with h1 h2
          exact absurd h2.symm (List.cons_ne_nil _ _)
        · exact h

theorem mem_of_mem_trimSpace (x : Char) (s : Str) (h : x ∈ trimSpace s) : x ∈ s := by
  unfold trimSpace at h
  rw [List.mem_reverse] at h
  have h1 := (List.dropWhile_sublist _).subset h
  rw [List.mem_reverse] at h1
  exact (List.dropWhile_sublist _).subset h1

theorem mem_upsert (m : Tags) (k v : Str) (p : Str × Str) (h : p ∈ upsert m k v) :
    p ∈ m ∨ p = (k, v) := by
  unfold upsert at h
  rcases List.mem_append.mp h with h | h
  · exact Or.inl (List.mem_of_mem_filter h)
  · simp at h
    exact Or.inr h

/-- Every value in a parsed tag map is a `"="`-free token of its segment. -/
theorem parseLoop_values (segs : List Str) :
    ∀ (acc m : Tags), (∀ p ∈ acc, '=' ∉ p.2) → parseLoop segs acc = some m →
      ∀ p ∈ m, '=' ∉ p.2 := by
  induction segs with
  | nil =>
    intro acc m hacc h
    simp [parseLoop] at h
    subst h
    exact hacc
  | cons seg rest ih =>
    intro acc m hacc h
    rw [parseLoop.eq_def] at h
    dsimp only at h
    split at h
    · exact ih _ _ hacc h
    · rename_i k hsplit
      by_cases hk : k = ['-']
      · rw [if_pos hk] at h
        exact absurd h (by simp)
      · rw [if_neg hk] at h
        exact ih _ _ hacc h
    · rename_i k v vs hsplit
      apply ih _ _ _ h
      intro p hp
      rcases mem_upsert _ _ _ _ hp with hp | hp
      · exact hacc p hp
      · subst hp
        intro hmem
        have hv : v ∈ splitOnC '=' seg := by
          rw [hsplit]
          exact List.mem_cons_of_mem _ (List.mem_cons_self _ _)
        exact not_mem_of_mem_splitOnC '=' seg v hv (mem_of_mem_trimSpace _ _ hmem)

/-- C2 (counterexample): on the segment `a=b=c` the parser does NOT take
everything after the first `=` as the value: the stored value is `b`, not
`b=c`. -/
theorem claim_C2_counterexample :
    parseTags "a=b=c".toList = some [("a".toList, "b".toList)] ∧
    ¬ ((parseTags "a=b=c".toList).map (fun m => tagsGet m "a".toList) =
        some (some "b=c".toList)) := by
  constructor
  · decide
  · decide

/-- C2 (amended): for a segment containing at least one `=`, the parser
splits the segment on every `=`, takes the part before the first `=` as the
key and the token strictly between the first and the second `=` as the
value (both trimmed), discarding anything from the second `=` on — so a
parsed value never contains `=`. -/
theorem claim_C2 :
    (∀ (seg : Str) (rest : List Str) (acc : Tags) (k v : Str) (vs : List Str),
      splitOnC '=' seg = k :: v :: vs →
      parseLoop (seg :: rest) acc = parseLoop rest (upsert acc (trimSpace k) (trimSpace v))) ∧
    (∀ (s : Str) (m : Tags), parseTags s = some m → ∀ p ∈ m, '=' ∉ p.2) := by
  constructor
  · intro seg rest acc k v vs h
    rw [parseLoop.eq_def]
    dsimp only
    rw [h]
  · intro s m h p hp
    by_cases ht : trimSpace s = []
    · simp [parseTags, ht] at h
      subst h
      simp at hp
    · simp [parseTags, ht] at h
      exact parseLoop_values _ [] m (by simp) h p hp

theorem claim_C2_witness :
    parseLoop ["a=b=c".toList] [] =
      parseLoop [] (upsert [] (trimSpace "a".toList) (trimSpace "b".toList)) ∧
    '=' ∉ (("a".toList, "b".toList) : Str × Str).2 := by
  constructor
  · exact claim_C2.1 "a=b=c".toList [] [] "a".toList "b".toList ["c".toList] (by decide)
  · exact claim_C2.2 "a=b".toList [("a".toList, "b".toList)] (by decide)
      ("a".toList, "b".toList) (by decide)

/-- C9: the parser returns the ignored marker exactly when some segment is
the literal `-`; any other `=`-less segment is skipped without effect; at
the flattener level an ignored leaf component is omitted and a non-ignored
leaf component is emitted with the understood overrides applied. -/
theorem claim_C9 :
    (∀ s : Str, parseTags s = none ↔
      (trimSpace s ≠ [] ∧ ['-'] ∈ splitOnC ';' (trimSpace s))) ∧
    (∀ (seg : Str) (rest : List Str) (acc : Tags),
      splitOnC '=' seg = [seg] → seg ≠ ['-'] →
      parseLoop (seg :: rest) acc = parseLoop rest acc) ∧
    (∀ (fd : Fld) (rest : List Fld) (names : List Str),
      isExported fd.name = true → (indirect (substVal fd)).isStrct = false →
      (parseTags fd.tag = none → fieldsLoop (fd :: rest) names = fieldsLoop rest names) ∧
      (∀ tags, parseTags fd.tag = some tags →
        fieldsLoop (fd :: rest) names =
          match fieldsLoop rest names with
          | none => none
          | some tl => some (applyTags (defaultField names fd.name (substVal fd)) tags :: tl))) := by
  refine ⟨?_, ?_, ?_⟩
  · intro s
    by_cases ht : trimSpace s = []
    · simp [parseTags, ht]
    · simp [parseTags, ht]
      exact parseLoop_none_iff _ []
  · intro seg rest acc h hseg
    rw [parseLoop.eq_def]
    dsimp only
    rw [h]
    simp [hseg]
  · intro fd rest names hx hs
    constructor
    · intro hp
      exact fieldsLoop_ignored fd rest names hx hs hp
    · intro tags hp
      exact fieldsLoop_leaf fd rest names tags hx hs hp

theorem claim_C9_witness :
    parseTags "x;-".toList = none ∧
    parseLoop ["junk".toList, "a=b".toList] [] = parseLoop ["a=b".toList] [] ∧
    fieldsLoop [Fld.mk "Secret".toList false "-".toList (.str "x".toList)] [] =
      fieldsLoop [] [] := by
  refine ⟨?_, ?_, ?_⟩
  · exact (claim_C9.1 "x;-".toList).mpr ⟨by decide, by decide⟩
  · exact claim_C9.2.1 "junk".toList ["a=b".toList] [] (by decide) (by decide)
  · exact (claim_C9.2.2 (Fld.mk "Secret".toList false "-".toList (.str "x".toList)) [] []
      (by decide) (by decide)).1 (by decide)

/-- The contribution of a single visible field to the output of the loop of
`fields`: nothing for an unexported or anonymous-record field, the
recursive descriptors (under the extended path) for a named record field,
nothing for an ignored leaf, and the single built descriptor for an
emitted leaf. -/
def contrib (names : List Str) (fd : Fld) : Option (List field) :=
  if isExported fd.name = false then some []
  else if (indirect (substVal fd)).isStrct then
    if fd.anonymous = false then fields (substVal fd) (names ++ [fd.name])
    else some []
  else
    match parseTags fd.tag with
    | none => some []
    | some tags => some [applyTags (defaultField names fd.name (substVal fd)) tags]

/-- Concatenation, in declaration order, of the per-field contributions;
a panic (`none`) in any contribution propagates. -/
def contribs (names : List Str) : List Fld → Option (List field)
  | [] => some []
  | fd :: rest =>
    match contrib names fd, contribs names rest with
    | some b, some bs => some (b ++ bs)
    | _, _ => none

/-- The per-field contributions over a resolved visible-field list; the
resolution's panic (a nil embedded pointer under an exported promoted
field) propagates. -/
def contribAll (names : List Str) : Option (List Fld) → Option (List field)
  | none => none
  | some l => contribs names l

/-- The loop of `fields` is the concatenation, in order, of the
per-field contributions (with panic propagation). -/
theorem fieldsLoop_eq_contrib (l : List Fld) (names : List Str) :
    fieldsLoop l names = contribs names l := by
  induction l with
  | nil => simp [fieldsLoop_nil, contribs]
  | cons fd rest ih =>
    by_cases hx : isExported fd.name = true
    · by_cases hs : (indirect (substVal fd)).isStrct = true
      · by_cases ha : fd.anonymous = false
        · rw [fieldsLoop_record _ _ _ hx hs ha, ih]
          simp only [contribs, contrib, hx, hs, ha, Bool.true_eq_false, reduceIte, if_true]
          cases hrec : fields (substVal fd) (names ++ [fd.name]) <;>
            cases hrest : contribs names rest <;> simp
        · have ha' : fd.anonymous = true := by
            revert ha; cases fd.anonymous <;> simp
          rw [fieldsLoop_anon _ _ _ hx hs ha', ih]
          simp only [contribs, contrib, hx, hs, ha', Bool.true_eq_false, reduceIte]
          cases hrest : contribs names rest <;> simp
      · have hs' : (indirect (substVal fd)).isStrct = false := by
          revert hs; cases (indirect (substVal fd)).isStrct <;> simp
        cases hp : parseTags fd.tag with
        | none =>
          rw [fieldsLoop_ignored _ _ _ hx hs' hp, ih]
          simp only [contribs, contrib, hx, hs', hp, Bool.true_eq_false, reduceIte]
          cases hrest : contribs names rest <;> simp
        | some tags =>
          rw [fieldsLoop_leaf _ _ _ tags hx hs' hp, ih]
          simp only [contribs, contrib, hx, hs', hp, Bool.true_eq_false, reduceIte]
          cases hrest : contribs names rest <;> simp
    · have hx' : isExported fd.name = false := by
        revert hx; cases isExported fd.name <;> simp
      rw [fieldsLoop_unexported _ _ _ hx', ih]
      simp only [contribs, contrib, hx', reduceIte]
      cases hrest : contribs names rest <;> simp

/-- C7: on a normalized struct input the output of `fields` is exactly the
concatenation, in declaration order, of the per-component contributions of
its resolved visible fields — so the descriptors of a nested record appear
contiguously at the position of that record's slot (depth-first pre-order),
and a panic in the enumeration or in any contribution propagates. -/
theorem claim_C7 (v : Val) (names : List Str) (fs : Flds) (hv : valueOf v = .strct fs) :
    fields v names = contribAll names (visibleFieldVals fs) := by
  cases hl : visibleFieldVals fs with
  | none => rw [fields_eq_none v names fs hv hl]; rfl
  | some l =>
    rw [fields_eq_loop v names fs l hv hl]
    exact fieldsLoop_eq_contrib _ _

/-- Sample record: `{Street1 string `form:"name=street"` = "123 Test St"}`. -/
def addrFlds : Flds :=
  .cons (.mk "Street1".toList false "name=street".toList (.str "123 Test St".toList)) .nil

/-- Sample record with a named nested record (spec scenario S4 shape). -/
def sampleNested : Flds :=
  .cons (.mk "Name".toList false "label=Full Name;id=name".toList (.str "Michael Scott".toList))
    (.cons (.mk "Address".toList false [] (.strct addrFlds)) .nil)

theorem claim_C7_witness :
    fields (.strct sampleNested) [] = contribAll [] (visibleFieldVals sampleNested) :=
  claim_C7 (.strct sampleNested) [] sampleNested (by rfl)

/-- A one-level-indirected struct is a struct after full normalization,
with no size increase. -/
theorem valueOf_strct_of_indirect (w : Val) (h : (indirect w).isStrct = true) :
    ∃ gs, valueOf w = .strct gs ∧ szV (Val.strct gs) ≤ szV w := by
  match w with
  | .strct gs => exact ⟨gs, rfl, le_refl _⟩
  | .ptr z (.ref u) =>
    match u with
    | .strct gs =>
      refine ⟨gs, rfl, ?_⟩
      simp [szV, szT]
      omega
    | .str s => simp [indirect, Val.isStrct] at h
    | .ptr z' t' => simp [indirect, Val.isStrct] at h
    | .invalid => simp [indirect, Val.isStrct] at h
  | .ptr z .null => simp [indirect, Val.isStrct] at h
  | .str s => simp [indirect, Val.isStrct] at h
  | .invalid => simp [indirect, Val.isStrct] at h

/-- Origin data of one emitted component: the name path at its record, its
declared name, its parsed tags, and its (nil-substituted) value. -/
structure LeafInfo where
  pre : List Str
  nm : Str
  tags : Tags
  value : Val

/-- The descriptor built from one leaf's origin data, exactly as the loop
of `fields` builds it: defaults from the path and declared name, then tag
overrides. -/
def buildLeaf (e : LeafInfo) : field :=
  applyTags (defaultField e.pre e.nm e.value) e.tags

mutual
/-- Companion traversal of `fields`: identical recursion, but recording
each emitted component's origin (`LeafInfo`) instead of building the
descriptor. -/
def emittedLeaves (v : Val) (names : List Str) : Option (List LeafInfo) :=
  match hv : valueOf v with
  | .strct fs =>
    match hl : visibleFieldVals fs with
    | none => none
    | some l => emittedLoop l names
  | .str _ => none
  | .ptr _ _ => none
  | .invalid => none
termination_by (szV v, 0)
decreasing_by
  simp_wf
  apply Prod.Lex.left
  have h2 := szV_valueOf_le v
  rw [hv] at h2
  have h1 : maxFld l < szV (Val.strct fs) := by
    rw [maxFld_lt_iff _ _ (by simp [szV])]
    exact szV_lt_of_mem_visible fs l hl
  simp only [szV] at h1 h2 ⊢
  omega

/-- Companion of the loop of `fields` (see `emittedLeaves`). -/
def emittedLoop (l : List Fld) (names : List Str) : Option (List LeafInfo) :=
  match l with
  | [] => some []
  | fd :: rest =>
    if isExported fd.name = false then emittedLoop rest names
    else if (indirect (substVal fd)).isStrct then
      if fd.anonymous = false then
        match emittedLeaves (substVal fd) (names ++ [fd.name]) with
        | none => none
        | some sub =>
          match emittedLoop rest names with
          | none => none
          | some tl => some (sub ++ tl)
      else emittedLoop rest names
    else
      match parseTags fd.tag with
      | none => emittedLoop rest names
      | some tags =>
        match emittedLoop rest names with
        | none => none
        | some tl => some (⟨names, fd.name, tags, substVal fd⟩ :: tl)
termination_by (maxFld l, l.length)
decreasing_by
  all_goals simp_wf
  all_goals first
  | · have h : szV (substVal fd) ≤ max (szV fd.val) (maxFld rest) :=
        le_trans (szV_substVal_le fd) (le_max_left _ _)
      rw [maxFld_cons]
      rcases Nat.eq_or_lt_of_le h with h | h
      · rw [← h]; exact Prod.Lex.right _ (by simp)
      · exact Prod.Lex.left _ _ h
  | · have h : maxFld rest ≤ max (szV fd.val) (maxFld rest) := le_max_right _ _
      rw [maxFld_cons]
      rcases Nat.eq_or_lt_of_le h with h | h
      · rw [← h]; exact Prod.Lex.right _ (by simp)
      · exact Prod.Lex.left _ _ h
end

theorem emittedLeaves_def (v : Val) (names : List Str) :
    emittedLeaves v names = match valueOf v with
      | .strct fs =>
        match visibleFieldVals fs with
        | none => none
        | some l => emittedLoop l names
      | .str _ => none
      | .ptr _ _ => none
      | .invalid => none := by
  rw [emittedLeaves]
  split
  · split <;> simp [*]
  all_goals simp [*]

theorem emittedLoop_def (l : List Fld) (names : List Str) :
    emittedLoop l names = match l with
  | [] => some []
  | fd :: rest =>
    if isExported fd.name = false then emittedLoop rest names
    else if (indirect (substVal fd)).isStrct then
      if fd.anonymous = false then
        match emittedLeaves (substVal fd) (names ++ [fd.name]) with
        | none => none
        | some sub =>
          match emittedLoop rest names with
          | none => none
          | some tl => some (sub ++ tl)
      else emittedLoop rest names
    else
      match parseTags fd.tag with
      | none => emittedLoop rest names
      | some tags =>
        match emittedLoop rest names with
        | none => none
        | some tl => some (⟨names, fd.name, tags, substVal fd⟩ :: tl) := by
  rw [emittedLoop.eq_def]

theorem emitted_eq_loop (w : Val) (names : List Str) (gs : Flds) (l : List Fld)
    (h : valueOf w = .strct gs) (hl : visibleFieldVals gs = some l) :
    emittedLeaves w names = emittedLoop l names := by
  simp only [emittedLeaves_def, h, hl]

theorem emitted_eq_none (w : Val) (names : List Str) (gs : Flds)
    (h : valueOf w = .strct gs) (hl : visibleFieldVals gs = none) :
    emittedLeaves w names = none := by
  simp only [emittedLeaves_def, h, hl]

/-- `fields` is `emittedLeaves` with `buildLeaf` applied to every emitted
component (loop level, size-bounded). -/
theorem loop_corr (n : Nat) :
    ∀ (l : List Fld) (names : List Str), (∀ fd ∈ l, szV fd.val < n) →
      fieldsLoop l names = (emittedLoop l names).map (List.map buildLeaf) := by
  induction n using Nat.strong_induction_on with
  | _ n ihn =>
    intro l
    induction l with
    | nil => intro names _; rw [fieldsLoop_nil, emittedLoop_def]; rfl
    | cons fd rest ihl =>
      intro names hb
      have hbrest : ∀ fd' ∈ rest, szV fd'.val < n :=
        fun fd' h' => hb fd' (List.mem_cons_of_mem _ h')
      rw [fieldsLoop_def, emittedLoop_def]
      by_cases hx : isExported fd.name = false
      · simp only [hx, if_true, reduceIte]
        exact ihl names hbrest
      · simp only [hx, reduceIte]
        by_cases hs : (indirect (substVal fd)).isStrct = true
        · simp only [hs, if_true, reduceIte]
          by_cases ha : fd.anonymous = false
          · simp only [ha, if_true, reduceIte]
            obtain ⟨gs, hval, hsz⟩ := valueOf_strct_of_indirect (substVal fd) hs
            have hm : szV (Val.strct gs) < n :=
              lt_of_le_of_lt (le_trans hsz (szV_substVal_le fd))
                (hb fd (List.mem_cons_self _ _))
            cases hvl : visibleFieldVals gs with
            | none =>
              rw [fields_eq_none _ _ _ hval hvl, emitted_eq_none _ _ _ hval hvl]
              rfl
            | some lsub =>
              have hsub := ihn (szV (Val.strct gs)) hm lsub (names ++ [fd.name])
                (szV_lt_of_mem_visible gs lsub hvl)
              rw [fields_eq_loop _ _ _ _ hval hvl, emitted_eq_loop _ _ _ _ hval hvl,
                hsub, ihl names hbrest]
              cases emittedLoop lsub (names ++ [fd.name]) with
              | none => rfl
              | some sub =>
                cases emittedLoop rest names with
                | none => rfl
                | some tl => simp
          · simp only [ha, reduceIte]
            exact ihl names hbrest
        · simp only [hs, reduceIte]
          cases hp : parseTags fd.tag with
          | none => exact ihl names hbrest
          | some tags =>
            rw [ihl names hbrest]
            cases emittedLoop rest names with
            | none => rfl
            | some tl => simp [buildLeaf]

/-- `fields` is `emittedLeaves` with `buildLeaf` applied pointwise. -/
theorem fields_corr (v : Val) (names : List Str) :
    fields v names = (emittedLeaves v names).map (List.map buildLeaf) := by
  cases hv : valueOf v with
  | strct fs =>
    cases hvl : visibleFieldVals fs with
    | none =>
      rw [fields_eq_none _ _ _ hv hvl, emitted_eq_none _ _ _ hv hvl]
      rfl
    | some l =>
      rw [fields_eq_loop _ _ _ _ hv hvl, emitted_eq_loop _ _ _ _ hv hvl]
      exact loop_corr (szV (Val.strct fs)) l names (szV_lt_of_mem_visible fs l hvl)
  | str s => rw [fields_def, emittedLeaves_def, hv]; rfl
  | ptr z t => rw [fields_def, emittedLeaves_def, hv]; rfl
  | invalid => rw [fields_def, emittedLeaves_def, hv]; rfl

/-- C3: every emitted descriptor arises from a recorded origin — the
root-to-component path of declared names and the parsed tags — and its
Name is the dot-join of that path unless the annotation supplies `name`,
in which case Name is exactly the supplied value, with no path prefix. -/
theorem claim_C3 (v : Val) (names : List Str) (l : List field)
    (h : fields v names = some l) :
    ∃ el, emittedLeaves v names = some el ∧ l = el.map buildLeaf ∧
      ∀ e ∈ el,
        (tagsGet e.tags "name".toList = none →
          (buildLeaf e).Name = intercalateC '.' (e.pre ++ [e.nm])) ∧
        (∀ ov, tagsGet e.tags "name".toList = some ov → (buildLeaf e).Name = ov) := by
  have hc := fields_corr v names
  rw [h] at hc
  cases he : emittedLeaves v names with
  | none => rw [he] at hc; simp at hc
  | some el =>
    rw [he] at hc
    simp at hc
    refine ⟨el, rfl, hc, ?_⟩
    intro e _
    constructor
    · intro hn
      unfold buildLeaf
      rw [applyTags_eq, hn]
      rfl
    · intro ov hn
      unfold buildLeaf
      rw [applyTags_eq, hn]
      rfl

/-- A one-field record whose single component overrides its name. -/
def renamedFlds : Flds :=
  .cons (.mk "Name".toList false "name=n".toList (.str [])) .nil

theorem claim_C3_witness :
    ∃ el, emittedLeaves (.strct renamedFlds) [] = some el ∧
      [{ Name := "n".toList, Label := "Name".toList, Placeholder := "Name".toList,
         Typ := "text".toList, ID := [], ReadOnly := false, Value := .str [],
         Footer := [], Class := [], Options := [] }] = el.map buildLeaf ∧
      ∀ e ∈ el,
        (tagsGet e.tags "name".toList = none →
          (buildLeaf e).Name = intercalateC '.' (e.pre ++ [e.nm])) ∧
        (∀ ov, tagsGet e.tags "name".toList = some ov → (buildLeaf e).Name = ov) := by
  apply claim_C3
  simp +decide [fields_def, fieldsLoop_def, renamedFlds, valueOf, derefAll,
    visibleFieldVals, visibleWalk, promotedWalk, applyShadow, shadowAlive, shadowStep,
    enumKeys, idxFilter, wKey, nmLookup, nmSet, markDead, resolveAccess,
    isExported, substVal, indirect, Val.isStrct, parseTags,
    parseLoop, trimSpace, splitOnC, Fld.name, Fld.val, Fld.tag, Fld.anonymous,
    defaultField, applyTags, tagsGet, upsert, intercalateC]

mutual
/-- Is the value the canonical zero of its type?  (The invalid value is no
type's zero.) -/
def isZeroVal : Val → Bool
  | .str s => s.isEmpty
  | .ptr z .null => isZeroVal z
  | .ptr _ (.ref _) => false
  | .strct fs => isZeroFlds fs
  | .invalid => false

/-- Fieldwise zero test. -/
def isZeroFlds : Flds → Bool
  | .nil => true
  | .cons fd rest => isZeroFld fd && isZeroFlds rest

/-- Zero test of one field's value. -/
def isZeroFld : Fld → Bool
  | .mk _ _ _ v => isZeroVal v
end

mutual
/-- Well-typedness: the invariants every value of the modelled universe
reachable in the Go program satisfies — the element-type witness of each
pointer is a canonical zero value, and each pointer target has exactly
that element type (the target's zero is the witness). -/
def WT : Val → Bool
  | .str _ => true
  | .invalid => true
  | .ptr z .null => isZeroVal z && WT z
  | .ptr z (.ref u) => isZeroVal z && WT z && WT u && decide (zeroOf u = z)
  | .strct fs => WTF fs

/-- Well-typedness of a field list. -/
def WTF : Flds → Bool
  | .nil => true
  | .cons fd rest => WTFld fd && WTF rest

/-- Well-typedness of one field's value. -/
def WTFld : Fld → Bool
  | .mk _ _ _ v => WT v
end

mutual
theorem zeroOf_of_isZero (v : Val) (h : isZeroVal v = true) : zeroOf v = v := by
  match v with
  | .str s =>
    simp [isZeroVal, List.isEmpty_iff] at h
    simp [zeroOf, h]
  | .ptr z .null => rfl
  | .ptr z (.ref u) => simp [isZeroVal] at h
  | .strct fs =>
    simp [isZeroVal] at h
    simp [zeroOf, zeroFlds_of_isZero fs h]
  | .invalid => simp [isZeroVal] at h

theorem zeroFlds_of_isZero (fs : Flds) (h : isZeroFlds fs = true) : zeroFlds fs = fs := by
  match fs with
  | .nil => rfl
  | .cons fd rest =>
    simp [isZeroFlds] at h
    simp [zeroFlds, zeroFld_of_isZero fd h.1, zeroFlds_of_isZero rest h.2]

theorem zeroFld_of_isZero (fd : Fld) (h : isZeroFld fd = true) : zeroFld fd = fd := by
  match fd with
  | .mk n a t v =>
    simp [isZeroFld] at h
    simp [zeroFld, zeroOf_of_isZero v h]
end

/-- `substVal` does not depend on the tag. -/
theorem substVal_tag_irrel (n : Str) (a : Bool) (tg tg' : Str) (v : Val) :
    substVal (.mk n a tg v) = substVal (.mk n a tg' v) := by
  cases v with
  | ptr z t => cases t <;> rfl
  | str s => rfl
  | strct fs => rfl
  | invalid => rfl

/-- A non-anonymous field contributes no promoted sub-walk. -/
theorem promotedWalk_named (nm tg : Str) (v : Val) (dead : Bool) (d : Nat) :
    promotedWalk (.mk nm false tg v) dead d = [] := by
  cases v with
  | str s => rfl
  | strct gs => rfl
  | ptr z t => cases z <;> cases t <;> rfl
  | invalid => rfl

/-- C10: for a named component of record kind the component's own
annotation is never consulted: `fields` does not depend on its tag (in
particular a `-` marker there has no effect). -/
theorem claim_C10 (n tg tg' : Str) (v : Val) (rest : Flds) (names : List Str)
    (hx : isExported n = true)
    (hs : (indirect (substVal (.mk n false tg v))).isStrct = true) :
    fields (.strct (.cons (.mk n false tg v) rest)) names =
      fields (.strct (.cons (.mk n false tg' v) rest)) names := by
  have hsub := substVal_tag_irrel n false tg tg' v
  have hs' : (indirect (substVal (.mk n false tg' v))).isStrct = true := by
    rw [← hsub]; exact hs
  have hw1 : visibleWalk (.cons (.mk n false tg v) rest) false 1 =
      ⟨1, n, false, tg, some v⟩ :: visibleWalk rest false 1 := by
    rw [visibleWalk, promotedWalk_named]
    rfl
  have hw2 : visibleWalk (.cons (.mk n false tg' v) rest) false 1 =
      ⟨1, n, false, tg', some v⟩ :: visibleWalk rest false 1 := by
    rw [visibleWalk, promotedWalk_named]
    rfl
  have hkeys : ((⟨1, n, false, tg, some v⟩ : WEntry) ::
        visibleWalk rest false 1).map wKey =
      ((⟨1, n, false, tg', some v⟩ : WEntry) :: visibleWalk rest false 1).map wKey := by
    simp [wKey]
  have hv1 : visibleFieldVals (.cons (.mk n false tg v) rest) =
      resolveAccess (idxFilter (shadowAlive (((⟨1, n, false, tg, some v⟩ : WEntry) ::
        visibleWalk rest false 1).map wKey)) 0
        (⟨1, n, false, tg, some v⟩ :: visibleWalk rest false 1)) := by
    rw [visibleFieldVals, applyShadow, hw1]
  have hv2 : visibleFieldVals (.cons (.mk n false tg' v) rest) =
      resolveAccess (idxFilter (shadowAlive (((⟨1, n, false, tg, some v⟩ : WEntry) ::
        visibleWalk rest false 1).map wKey)) 0
        (⟨1, n, false, tg', some v⟩ :: visibleWalk rest false 1)) := by
    rw [visibleFieldVals, applyShadow, hw2, ← hkeys]
  set A := shadowAlive (((⟨1, n, false, tg, some v⟩ : WEntry) ::
    visibleWalk rest false 1).map wKey) with hA
  rw [idxFilter] at hv1 hv2
  by_cases hc : A.contains 0 = true
  · rw [if_pos hc] at hv1 hv2
    have hres : ∀ (tg0 : Str),
        resolveAccess ((⟨1, n, false, tg0, some v⟩ : WEntry) ::
            idxFilter A 1 (visibleWalk rest false 1)) =
          (resolveAccess (idxFilter A 1 (visibleWalk rest false 1))).map
            (Fld.mk n false tg0 v :: ·) := fun tg0 => rfl
    rw [hres tg] at hv1
    rw [hres tg'] at hv2
    cases hrr : resolveAccess (idxFilter A 1 (visibleWalk rest false 1)) with
    | none =>
      rw [hrr] at hv1 hv2
      rw [fields_eq_none (Val.strct (.cons (.mk n false tg v) rest)) names
          (.cons (.mk n false tg v) rest) rfl (hv1.trans rfl),
        fields_eq_none (Val.strct (.cons (.mk n false tg' v) rest)) names
          (.cons (.mk n false tg' v) rest) rfl (hv2.trans rfl)]
    | some g =>
      rw [hrr] at hv1 hv2
      rw [fields_eq_loop (Val.strct (.cons (.mk n false tg v) rest)) names
          (.cons (.mk n false tg v) rest) _ rfl (hv1.trans rfl),
        fields_eq_loop (Val.strct (.cons (.mk n false tg' v) rest)) names
          (.cons (.mk n false tg' v) rest) _ rfl (hv2.trans rfl)]
      rw [fieldsLoop_record (Fld.mk n false tg v) g names hx hs rfl,
        fieldsLoop_record (Fld.mk n false tg' v) g names hx hs' rfl]
      rw [hsub]
      rfl
  · rw [if_neg hc] at hv1 hv2
    have heq : visibleFieldVals (.cons (.mk n false tg v) rest) =
        visibleFieldVals (.cons (.mk n false tg' v) rest) := hv1.trans hv2.symm
    cases hvv : visibleFieldVals (.cons (.mk n false tg v) rest) with
    | none =>
      rw [fields_eq_none (Val.strct (.cons (.mk n false tg v) rest)) names
          (.cons (.mk n false tg v) rest) rfl hvv,
        fields_eq_none (Val.strct (.cons (.mk n false tg' v) rest)) names
          (.cons (.mk n false tg' v) rest) rfl (heq.symm.trans hvv)]
    | some g =>
      rw [fields_eq_loop (Val.strct (.cons (.mk n false tg v) rest)) names
          (.cons (.mk n false tg v) rest) g rfl hvv,
        fields_eq_loop (Val.strct (.cons (.mk n false tg' v) rest)) names
          (.cons (.mk n false tg' v) rest) g rfl (heq.symm.trans hvv)]

theorem claim_C10_witness :
    fields (.strct (.cons (.mk "Address".toList false "-".toList (.strct addrFlds)) .nil)) [] =
      fields (.strct (.cons (.mk "Address".toList false [] (.strct addrFlds)) .nil)) [] :=
  claim_C10 "Address".toList "-".toList [] (.strct addrFlds) .nil []
    (by decide) (by rfl)

/-- A one-leaf record `{Name string = "hi"}`. -/
def c5Flds : Flds :=
  .cons (.mk "Name".toList false [] (.str "hi".toList)) .nil

/-- A one-leaf record `{City string = "x"}`. -/
def cityFlds : Flds := .cons (.mk "City".toList false [] (.str "x".toList)) .nil

mutual
/-- Does the flattener return normally on this input?  Mirrors the
recursion of `fields`: the normalized input must be a struct, its
visible-field resolution must succeed (no exported field promoted through
a nil embedded pointer), and every exported named record component must
itself be panic-free.  The name path and the annotations play no role. -/
def panicFree (v : Val) : Bool :=
  match hv : valueOf v with
  | .strct fs =>
    match hl : visibleFieldVals fs with
    | none => false
    | some l => panicFreeLoop l
  | .str _ => false
  | .ptr _ _ => false
  | .invalid => false
termination_by (szV v, 0)
decreasing_by
  simp_wf
  apply Prod.Lex.left
  have h2 := szV_valueOf_le v
  rw [hv] at h2
  have h1 : maxFld l < szV (Val.strct fs) := by
    rw [maxFld_lt_iff _ _ (by simp [szV])]
    exact szV_lt_of_mem_visible fs l hl
  simp only [szV] at h1 h2 ⊢
  omega

/-- Loop companion of `panicFree`. -/
def panicFreeLoop (l : List Fld) : Bool :=
  match l with
  | [] => true
  | fd :: rest =>
    if isExported fd.name = false then panicFreeLoop rest
    else if (indirect (substVal fd)).isStrct then
      if fd.anonymous = false then panicFree (substVal fd) && panicFreeLoop rest
      else panicFreeLoop rest
    else panicFreeLoop rest
termination_by (maxFld l, l.length)
decreasing_by
  all_goals simp_wf
  all_goals first
  | · have h : szV (substVal fd) ≤ max (szV fd.val) (maxFld rest) :=
        le_trans (szV_substVal_le fd) (le_max_left _ _)
      rw [maxFld_cons]
      rcases Nat.eq_or_lt_of_le h with h | h
      · rw [← h]; exact Prod.Lex.right _ (by simp)
      · exact Prod.Lex.left _ _ h
  | · have h : maxFld rest ≤ max (szV fd.val) (maxFld rest) := le_max_right _ _
      rw [maxFld_cons]
      rcases Nat.eq_or_lt_of_le h with h | h
      · rw [← h]; exact Prod.Lex.right _ (by simp)
      · exact Prod.Lex.left _ _ h
end

theorem panicFree_def (v : Val) :
    panicFree v = match valueOf v with
      | .strct fs =>
        match visibleFieldVals fs with
        | none => false
        | some l => panicFreeLoop l
      | .str _ => false
      | .ptr _ _ => false
      | .invalid => false := by
  rw [panicFree]
  split
  · split <;> simp [*]
  all_goals simp [*]

theorem panicFreeLoop_def (l : List Fld) :
    panicFreeLoop l = match l with
  | [] => true
  | fd :: rest =>
    if isExported fd.name = false then panicFreeLoop rest
    else if (indirect (substVal fd)).isStrct then
      if fd.anonymous = false then panicFree (substVal fd) && panicFreeLoop rest
      else panicFreeLoop rest
    else panicFreeLoop rest := by
  rw [panicFreeLoop.eq_def]

theorem panicFree_eq_loop (w : Val) (gs : Flds) (l : List Fld)
    (h : valueOf w = .strct gs) (hl : visibleFieldVals gs = some l) :
    panicFree w = panicFreeLoop l := by
  simp only [panicFree_def, h, hl]

theorem panicFree_eq_false (w : Val) (gs : Flds)
    (h : valueOf w = .strct gs) (hl : visibleFieldVals gs = none) :
    panicFree w = false := by
  simp only [panicFree_def, h, hl]

theorem panicFreeLoop_nil : panicFreeLoop [] = true := by
  rw [panicFreeLoop_def]

theorem panicFreeLoop_cons (fd : Fld) (rest : List Fld) :
    panicFreeLoop (fd :: rest) =
      if isExported fd.name = false then panicFreeLoop rest
      else if (indirect (substVal fd)).isStrct then
        if fd.anonymous = false then panicFree (substVal fd) && panicFreeLoop rest
        else panicFreeLoop rest
      else panicFreeLoop rest := by
  rw [panicFreeLoop_def]

/-- The loop of `fields` returns exactly when `panicFreeLoop` holds
(recursion into named records abstracted by `rec`). -/
theorem loop_isSome (B : Nat)
    (rec : ∀ w, szV w < B → ∀ (names2 : List Str),
      (fields w names2).isSome = panicFree w) :
    ∀ (l : List Fld) (names : List Str), (∀ fd ∈ l, szV fd.val < B) →
      (fieldsLoop l names).isSome = panicFreeLoop l := by
  intro l
  induction l with
  | nil =>
    intro names _
    rw [fieldsLoop_nil, panicFreeLoop_nil]
    rfl
  | cons fd rest ih =>
    intro names hb
    have hbrest : ∀ x ∈ rest, szV x.val < B :=
      fun x hx => hb x (List.mem_cons_of_mem _ hx)
    rw [panicFreeLoop_cons]
    by_cases hx : isExported fd.name = false
    · rw [fieldsLoop_unexported _ _ _ hx, if_pos hx]
      exact ih names hbrest
    · have hx' : isExported fd.name = true := by
        revert hx; cases isExported fd.name <;> simp
      rw [if_neg hx]
      by_cases hs : (indirect (substVal fd)).isStrct = true
      · rw [hs, if_pos rfl]
        by_cases ha : fd.anonymous = false
        · rw [if_pos ha, fieldsLoop_record _ _ _ hx' hs ha]
          have hrec := rec (substVal fd)
            (lt_of_le_of_lt (szV_substVal_le fd) (hb fd (List.mem_cons_self _ _)))
            (names ++ [fd.name])
          cases hf : fields (substVal fd) (names ++ [fd.name]) with
          | none =>
            rw [hf] at hrec
            simp only [Option.isSome_none] at hrec
            rw [← hrec]
            rfl
          | some sub =>
            rw [hf] at hrec
            simp only [Option.isSome_some] at hrec
            rw [← hrec, Bool.true_and, ← ih names hbrest]
            cases fieldsLoop rest names <;> rfl
        · rw [if_neg ha, fieldsLoop_anon _ _ _ hx' hs (by
            revert ha; cases fd.anonymous <;> simp)]
          exact ih names hbrest
      · have hs' : (indirect (substVal fd)).isStrct = false := by
          revert hs; cases (indirect (substVal fd)).isStrct <;> simp
        rw [hs']
        simp only [Bool.false_eq_true, if_false]
        cases hp : parseTags fd.tag with
        | none =>
          rw [fieldsLoop_ignored _ _ _ hx' hs' hp]
          exact ih names hbrest
        | some tags =>
          rw [fieldsLoop_leaf _ _ _ tags hx' hs' hp, ← ih names hbrest]
          cases fieldsLoop rest names <;> rfl

/-- `fields` returns exactly when `panicFree` holds. -/
theorem fields_isSome :
    ∀ (n : Nat) (v : Val), szV v < n → ∀ (names : List Str),
      (fields v names).isSome = panicFree v := by
  intro n
  induction n using Nat.strong_induction_on with
  | _ n ih =>
    intro v hlt names
    cases hv : valueOf v with
    | strct fs =>
      cases hl : visibleFieldVals fs with
      | none =>
        rw [fields_eq_none v names fs hv hl, panicFree_eq_false v fs hv hl]
        rfl
      | some l =>
        rw [fields_eq_loop v names fs l hv hl, panicFree_eq_loop v fs l hv hl]
        have hB : szV (Val.strct fs) < n := by
          have := szV_valueOf_le v
          rw [hv] at this
          omega
        exact loop_isSome (szV (Val.strct fs))
          (fun w hw names2 => ih (szV (Val.strct fs)) hB w hw names2)
          l names (szV_lt_of_mem_visible fs l hl)
    | str s =>
      rw [fields_def, panicFree_def, hv]
      rfl
    | ptr z t =>
      rw [fields_def, panicFree_def, hv]
      rfl
    | invalid =>
      rw [fields_def, panicFree_def, hv]
      rfl

/-- C4 (corrected): a non-record normalized input always panics; but on
record-shaped inputs the flattener does not always return — it fails
exactly when the `panicFree` recursion is violated, that is, when the
enumeration (here or nested in an exported named record component) reads
an exported field promoted through a nil embedded pointer.  `panicFree`
consults neither the name path nor any annotation, so annotation
malformations are indeed tolerated silently. -/
theorem claim_C4 (v : Val) (names : List Str) :
    ((valueOf v).isStrct = false → fields v names = none) ∧
    (fields v names = none ↔ panicFree v = false) := by
  constructor
  · intro h
    rw [fields_def]
    cases hv : valueOf v with
    | strct fs => rw [hv] at h; simp [Val.isStrct] at h
    | str s => rfl
    | ptr z t => rfl
    | invalid => rfl
  · have hh := fields_isSome (szV v + 1) v (by omega) names
    constructor
    · intro h
      rw [h] at hh
      simp only [Option.isSome_none] at hh
      exact hh.symm
    · intro h
      rw [h] at hh
      cases hf : fields v names with
      | none => rfl
      | some l =>
        rw [hf] at hh
        simp at hh

/-- A record with one anonymous exported nil pointer-to-record field. -/
def embNilFlds : Flds :=
  .cons (.mk "Emb".toList true [] (.ptr (.strct (zeroFlds cityFlds)) .null)) .nil

/-- C4 counterexample: a record-shaped input on which the flattener
nevertheless panics — its exported leaf is promoted through a nil embedded
pointer-to-record, so the loop's `FieldByIndex` hits the nil-indirection
panic.  This refutes "returns normally on any record-shaped input". -/
theorem claim_C4_counterexample :
    (valueOf (Val.strct embNilFlds)).isStrct = true ∧
    fields (Val.strct embNilFlds) [] = none := by
  constructor
  · rfl
  · simp +decide [fields_def, embNilFlds, cityFlds, valueOf, derefAll,
      visibleFieldVals, visibleWalk, promotedWalk, applyShadow, shadowAlive,
      shadowStep, enumKeys, idxFilter, wKey, nmLookup, nmSet, markDead,
      resolveAccess, isExported, zeroFlds, zeroFld, zeroOf, Fld.name, Fld.val,
      Fld.tag, Fld.anonymous]

theorem claim_C4_witness :
    fields (Val.str "x".toList) [] = none ∧
    (fields (Val.strct c5Flds) [] = none ↔ panicFree (Val.strct c5Flds) = false) :=
  ⟨(claim_C4 (Val.str "x".toList) []).1 (by decide),
   (claim_C4 (Val.strct c5Flds) []).2⟩

/-- An exported walked entry whose access panics makes the whole
resolution panic. -/
theorem resolveAccess_dead :
    ∀ (m : List WEntry) (e : WEntry), e ∈ m → e.access = none →
      isExported e.name = true → resolveAccess m = none := by
  intro m
  induction m with
  | nil => intro e he; simp at he
  | cons a rest ih =>
    intro e he hacc hx
    rw [resolveAccess]
    rcases List.mem_cons.mp he with h | h
    · subst h
      rw [hacc, if_pos hx]
    · cases ha : a.access with
      | some u =>
        rw [ih e h hacc hx]
        rfl
      | none =>
        by_cases hxa : isExported a.name = true
        · rw [if_pos hxa]
        · rw [if_neg hxa, ih e h hacc hx]
          rfl

/-- C6 (corrected): the record cases of the flattener.  (1) A named
component of record kind: recurse with the path extended by its name,
emitting nothing for the component itself.  (2) An anonymous component of
record kind contributes nothing at its own slot.  (3)–(5) Its fields
instead join the enumeration inlined at the current level, one depth
deeper: directly for an embedded record, through the pointee for a
non-nil embedded pointer-to-record, and through the element type with
every access dead for a nil embedded pointer-to-record.  (6) A dead access
at an exported name makes the enumeration panic — so the promoted leaves
of a nil embedded pointer are never emitted; shadowed promoted leaves are
likewise dropped (`applyShadow`), see the counterexample. -/
theorem claim_C6 :
    (∀ (fd : Fld) (rest : List Fld) (names : List Str),
      isExported fd.name = true → (indirect (substVal fd)).isStrct = true →
      fd.anonymous = false →
      fieldsLoop (fd :: rest) names =
        match fields (substVal fd) (names ++ [fd.name]) with
        | none => none
        | some sub =>
          match fieldsLoop rest names with
          | none => none
          | some tl => some (sub ++ tl)) ∧
    (∀ (fd : Fld) (rest : List Fld) (names : List Str),
      isExported fd.name = true → (indirect (substVal fd)).isStrct = true →
      fd.anonymous = true →
      fieldsLoop (fd :: rest) names = fieldsLoop rest names) ∧
    (∀ (nm tg : Str) (gs rest : Flds) (dead : Bool) (d : Nat),
      visibleWalk (.cons (.mk nm true tg (.strct gs)) rest) dead d =
        ⟨d, nm, true, tg, if dead then none else some (.strct gs)⟩ ::
          (visibleWalk gs dead (d + 1) ++ visibleWalk rest dead d)) ∧
    (∀ (nm tg : Str) (gz gu rest : Flds) (dead : Bool) (d : Nat),
      visibleWalk (.cons (.mk nm true tg
          (.ptr (.strct gz) (.ref (.strct gu)))) rest) dead d =
        ⟨d, nm, true, tg,
            if dead then none else some (.ptr (.strct gz) (.ref (.strct gu)))⟩ ::
          (visibleWalk gu dead (d + 1) ++ visibleWalk rest dead d)) ∧
    (∀ (nm tg : Str) (gz rest : Flds) (dead : Bool) (d : Nat),
      visibleWalk (.cons (.mk nm true tg (.ptr (.strct gz) .null)) rest) dead d =
        ⟨d, nm, true, tg, if dead then none else some (.ptr (.strct gz) .null)⟩ ::
          (visibleWalk gz true (d + 1) ++ visibleWalk rest dead d)) ∧
    (∀ (m : List WEntry) (e : WEntry), e ∈ m → e.access = none →
      isExported e.name = true → resolveAccess m = none) := by
  refine ⟨fieldsLoop_record, fieldsLoop_anon, ?_, ?_, ?_, resolveAccess_dead⟩
  · intro nm tg gs rest dead d
    rw [visibleWalk]
    rfl
  · intro nm tg gz gu rest dead d
    rw [visibleWalk]
    rfl
  · intro nm tg gz rest dead d
    rw [visibleWalk]
    rfl

/-- Two records both declaring the exported leaf `Dup`. -/
def dupA : Flds := .cons (.mk "Dup".toList false [] (.str "a".toList)) .nil

def dupB : Flds := .cons (.mk "Dup".toList false [] (.str "b".toList)) .nil

/-- A record embedding two anonymous records that both declare `Dup`. -/
def shadowFlds : Flds :=
  .cons (.mk "A".toList true [] (.strct dupA))
    (.cons (.mk "B".toList true [] (.strct dupB)) .nil)

/-- C6 counterexample: the leaves of the two embedded records are *not*
emitted — the equally-deep `Dup` fields cancel each other out in
`reflect.VisibleFields`' hiding pass, so the output is empty, refuting the
unconditional "leaf components are emitted inlined". -/
theorem claim_C6_counterexample :
    fields (Val.strct shadowFlds) [] = some [] := by
  simp +decide [fields_def, fieldsLoop_def, shadowFlds, dupA, dupB, valueOf,
    derefAll, visibleFieldVals, visibleWalk, promotedWalk, applyShadow, shadowAlive,
    shadowStep, enumKeys, idxFilter, wKey, nmLookup, nmSet, markDead, resolveAccess,
    isExported, substVal, indirect, Val.isStrct, parseTags, parseLoop, trimSpace,
    splitOnC, Fld.name, Fld.val, Fld.tag, Fld.anonymous, defaultField, applyTags,
    tagsGet, upsert, intercalateC]

theorem claim_C6_witness :
    (fieldsLoop [Fld.mk "Address".toList false [] (.strct addrFlds)] [] =
      match fields (substVal (Fld.mk "Address".toList false [] (.strct addrFlds)))
          ([] ++ [(Fld.mk "Address".toList false [] (.strct addrFlds)).name]) with
      | none => none
      | some sub =>
        match fieldsLoop [] [] with
        | none => none
        | some tl => some (sub ++ tl)) ∧
    (fieldsLoop [Fld.mk "Emb".toList true [] (.strct addrFlds)] [] =
      fieldsLoop [] []) ∧
    visibleWalk (.cons (.mk "Emb".toList true [] (.strct cityFlds)) .nil) false 1 =
      ⟨1, "Emb".toList, true, [], some (.strct cityFlds)⟩ ::
        (visibleWalk cityFlds false 2 ++ visibleWalk .nil false 1) ∧
    resolveAccess [⟨2, "City".toList, false, [], none⟩] = none := by
  refine ⟨claim_C6.1 (Fld.mk "Address".toList false [] (.strct addrFlds)) [] []
      (by decide) (by rfl) (by rfl),
    claim_C6.2.1 (Fld.mk "Emb".toList true [] (.strct addrFlds)) [] []
      (by decide) (by rfl) (by rfl),
    claim_C6.2.2.1 "Emb".toList [] cityFlds .nil false 1,
    claim_C6.2.2.2.2.2 [⟨2, "City".toList, false, [], none⟩]
      ⟨2, "City".toList, false, [], none⟩ (by simp) (by rfl) (by decide)⟩

/-- Test vector "ignored fields" (src/reflect_test.go): a `-` marker
skips the component. -/
theorem testVec_ignored :
    fields (.strct (.cons (.mk "Name".toList false [] (.str []))
      (.cons (.mk "Ignored".toList false "-".toList (.str "secret info".toList)) .nil))) [] =
    some [{ Name := "Name".toList, Label := "Name".toList, Placeholder := "Name".toList,
            Typ := "text".toList, ID := [], ReadOnly := false, Value := .str [],
            Footer := [], Class := [], Options := [] }] := by
  simp +decide [fields_def, fieldsLoop_def, valueOf, derefAll, visibleFieldVals,
    visibleWalk, promotedWalk, applyShadow, shadowAlive, shadowStep, enumKeys,
    idxFilter, wKey, nmLookup, nmSet, markDead, resolveAccess, isExported, substVal, indirect, Val.isStrct, parseTags, parseLoop, trimSpace,
    splitOnC, Fld.name, Fld.val, Fld.tag, Fld.anonymous, defaultField, applyTags, tagsGet,
    upsert, intercalateC]

/-- Test vector "nil pointer with type": flattening a nil pointer to
`{Street1 string}` produces the zero-valued descriptor. -/
theorem testVec_nilPointer :
    fields (.ptr (zeroOf (.strct addrFlds)) .null) [] =
    some [{ Name := "street".toList, Label := "Street1".toList,
            Placeholder := "Street1".toList, Typ := "text".toList, ID := [],
            ReadOnly := false, Value := .str [], Footer := [], Class := [],
            Options := [] }] := by
  simp +decide [fields_def, fieldsLoop_def, addrFlds, zeroOf, zeroFlds, zeroFld,
    valueOf, derefAll, visibleFieldVals,
    visibleWalk, promotedWalk, applyShadow, shadowAlive, shadowStep, enumKeys,
    idxFilter, wKey, nmLookup, nmSet, markDead, resolveAccess, isExported, substVal, indirect, Val.isStrct, parseTags, parseLoop, trimSpace,
    splitOnC, Fld.name, Fld.val, Fld.tag, Fld.anonymous, defaultField, applyTags, tagsGet,
    upsert, intercalateC]

/-- Test vector "nested with tags" (spec scenario S4): label/id overrides,
type/footer overrides, and a nested record with a name override. -/
theorem testVec_nestedTags :
    fields (.strct (.cons
        (.mk "Name".toList false "label=Full Name;id=name".toList
          (.str "Michael Scott".toList))
      (.cons (.mk "Password".toList false "type=password;footer=Something super secret!".toList
          (.str []))
      (.cons (.mk "Address".toList false [] (.strct addrFlds)) .nil)))) [] =
    some [{ Name := "Name".toList, Label := "Full Name".toList,
            Placeholder := "Full Name".toList, Typ := "text".toList, ID := "name".toList,
            ReadOnly := false, Value := .str "Michael Scott".toList, Footer := [],
            Class := [], Options := [] },
          { Name := "Password".toList, Label := "Password".toList,
            Placeholder := "Password".toList, Typ := "password".toList, ID := [],
            ReadOnly := false, Value := .str [],
            Footer := "Something super secret!".toList, Class := [], Options := [] },
          { Name := "street".toList, Label := "Street1".toList,
            Placeholder := "Street1".toList, Typ := "text".toList, ID := [],
            ReadOnly := false, Value := .str "123 Test St".toList, Footer := [],
            Class := [], Options := [] }] := by
  simp +decide [fields_def, fieldsLoop_def, addrFlds, valueOf, derefAll, visibleFieldVals,
    visibleWalk, promotedWalk, applyShadow, shadowAlive, shadowStep, enumKeys,
    idxFilter, wKey, nmLookup, nmSet, markDead, resolveAccess, isExported, substVal, indirect, Val.isStrct, parseTags, parseLoop, trimSpace,
    splitOnC, Fld.name, Fld.val, Fld.tag, Fld.anonymous, defaultField, applyTags, tagsGet,
    upsert, intercalateC]

/-- Test vector "nested anonymous" (spec scenario S5): the embedded
record's component is inlined — `City`, not `Address.City`. -/
theorem testVec_anonymous :
    fields (.strct (.cons (.mk "Name".toList false [] (.str []))
      (.cons (.mk "Address".toList true [] (.strct cityFlds)) .nil))) [] =
    some [{ Name := "Name".toList, Label := "Name".toList, Placeholder := "Name".toList,
            Typ := "text".toList, ID := [], ReadOnly := false, Value := .str [],
            Footer := [], Class := [], Options := [] },
          { Name := "City".toList, Label := "City".toList, Placeholder := "City".toList,
            Typ := "text".toList, ID := [], ReadOnly := false,
            Value := .str "x".toList,
            Footer := [], Class := [], Options := [] }] := by
  simp +decide [fields_def, fieldsLoop_def, cityFlds, valueOf, derefAll, visibleFieldVals,
    visibleWalk, promotedWalk, applyShadow, shadowAlive, shadowStep, enumKeys,
    idxFilter, wKey, nmLookup, nmSet, markDead, resolveAccess, isExported, substVal, indirect, Val.isStrct, parseTags, parseLoop, trimSpace,
    splitOnC, Fld.name, Fld.val, Fld.tag, Fld.anonymous, defaultField, applyTags, tagsGet,
    upsert, intercalateC]

/-- Test vector "read only field" (src/reflect_test.go): `readonly=true`
sets the boolean attribute. -/
theorem testVec_readonly :
    fields (.strct (.cons (.mk "Name".toList false "readonly=true".toList
      (.str "Michael Scott".toList)) .nil)) [] =
    some [{ Name := "Name".toList, Label := "Name".toList, Placeholder := "Name".toList,
            Typ := "text".toList, ID := [], ReadOnly := true,
            Value := .str "Michael Scott".toList, Footer := [], Class := [],
            Options := [] }] := by
  simp +decide [fields_def, fieldsLoop_def, valueOf, derefAll, visibleFieldVals,
    visibleWalk, promotedWalk, applyShadow, shadowAlive, shadowStep, enumKeys,
    idxFilter, wKey, nmLookup, nmSet, markDead, resolveAccess, isExported, substVal, indirect, Val.isStrct, parseTags, parseLoop, trimSpace,
    splitOnC, Fld.name, Fld.val, Fld.tag, Fld.anonymous, defaultField, applyTags, tagsGet,
    upsert, intercalateC]

/-- Test vector "multiple options" (src/unnamed/part_000, spec scenario
S6): the options list, in order, verbatim. -/
theorem testVec_options :
    fields (.strct (.cons (.mk "Name".toList false "options=readonly,required".toList
      (.str "Michael Scott".toList)) .nil)) [] =
    some [{ Name := "Name".toList, Label := "Name".toList, Placeholder := "Name".toList,
            Typ := "text".toList, ID := [], ReadOnly := false,
            Value := .str "Michael Scott".toList, Footer := [], Class := [],
            Options := ["readonly".toList, "required".toList] }] := by
  simp +decide [fields_def, fieldsLoop_def, valueOf, derefAll, visibleFieldVals,
    visibleWalk, promotedWalk, applyShadow, shadowAlive, shadowStep, enumKeys,
    idxFilter, wKey, nmLookup, nmSet, markDead, resolveAccess, isExported, substVal, indirect, Val.isStrct, parseTags, parseLoop, trimSpace,
    splitOnC, Fld.name, Fld.val, Fld.tag, Fld.anonymous, defaultField, applyTags, tagsGet,
    upsert, intercalateC]

/-- Test vector "unexported fields": a lower-case component is skipped. -/
theorem testVec_unexported :
    fields (.strct (.cons (.mk "Name".toList false [] (.str "Michael Scott".toList))
      (.cons (.mk "data".toList false [] (.str "foobar".toList)) .nil))) [] =
    some [{ Name := "Name".toList, Label := "Name".toList, Placeholder := "Name".toList,
            Typ := "text".toList, ID := [], ReadOnly := false,
            Value := .str "Michael Scott".toList, Footer := [], Class := [],
            Options := [] }] := by
  simp +decide [fields_def, fieldsLoop_def, valueOf, derefAll, visibleFieldVals,
    visibleWalk, promotedWalk, applyShadow, shadowAlive, shadowStep, enumKeys,
    idxFilter, wKey, nmLookup, nmSet, markDead, resolveAccess, isExported, substVal, indirect, Val.isStrct, parseTags, parseLoop, trimSpace,
    splitOnC, Fld.name, Fld.val, Fld.tag, Fld.anonymous, defaultField, applyTags, tagsGet,
    upsert, intercalateC]

/-- Test vector "nested with nil ptr": a nil pointer component of record
type is flattened as the zero instance of its element type, under the
component's path. -/
theorem testVec_nestedNilPtr :
    fields (.strct (.cons (.mk "Name".toList false [] (.str "Michael Scott".toList))
      (.cons (.mk "Address".toList false []
        (.ptr (.strct (zeroFlds addrFlds)) .null)) .nil))) [] =
    some [{ Name := "Name".toList, Label := "Name".toList, Placeholder := "Name".toList,
            Typ := "text".toList, ID := [], ReadOnly := false,
            Value := .str "Michael Scott".toList, Footer := [], Class := [],
            Options := [] },
          { Name := "street".toList, Label := "Street1".toList,
            Placeholder := "Street1".toList, Typ := "text".toList, ID := [],
            ReadOnly := false, Value := .str [], Footer := [], Class := [],
            Options := [] }] := by
  simp +decide [fields_def, fieldsLoop_def, addrFlds, zeroFlds, zeroFld, zeroOf,
    valueOf, derefAll, visibleFieldVals,
    visibleWalk, promotedWalk, applyShadow, shadowAlive, shadowStep, enumKeys,
    idxFilter, wKey, nmLookup, nmSet, markDead, resolveAccess, isExported, substVal, indirect, Val.isStrct, parseTags, parseLoop, trimSpace,
    splitOnC, Fld.name, Fld.val, Fld.tag, Fld.anonymous, defaultField, applyTags, tagsGet,
    upsert, intercalateC]
